import Mathlib

/-!
Verification of the orchestration core of `indoxMiner/loader.py`.

Python strings are modelled as lists of characters (`PyStr`); fallible
Python code (raising exceptions) is modelled with `Except`; the external
extraction adapters (the `unstructured` partition functions, the OCR
capability, the system clock) are passed in as an `Adapters` record of
functions, each returning `Except` so that a raising adapter is
representable.  All definitions are translated from the source file
`src/indoxMiner/loader.py`; the few places where an external collaborator
or the spec's own vocabulary has to be modelled are marked in their doc
comments.
-/

set_option maxRecDepth 4000

namespace Indox

/-- Python strings, modelled as lists of characters. -/
abbrev PyStr := List Char

/-- The ASCII whitespace characters recognised by Python's `str.split()` /
`str.strip()` (space, tab, newline, carriage return, vertical tab, form feed). -/
def isSpace (c : Char) : Bool :=
  c = ' ' || c = '\t' || c = '\n' || c = '\r' || c = '\x0b' || c = '\x0c'

/-- Helper for `pySplit`: walks the string accumulating the current word
(reversed); a whitespace character seals the current word. -/
def splitWsAux : List Char → List Char → List PyStr
  | [], acc => if acc.isEmpty then [] else [acc.reverse]
  | c :: cs, acc =>
    if isSpace c then
      if acc.isEmpty then splitWsAux cs [] else acc.reverse :: splitWsAux cs []
    else splitWsAux cs (c :: acc)

/-- Python's `str.split()` with no arguments: split on runs of whitespace,
discarding empty pieces. -/
def pySplit (s : PyStr) : List PyStr := splitWsAux s []

/-- Python's `sep.join(pieces)` for a one-character separator. -/
def joinSep (sep : Char) : List PyStr → PyStr
  | [] => []
  | [w] => w
  | w :: ws => w ++ sep :: joinSep sep ws

/-- Python's `" ".join(pieces)`. -/
def joinWords (ws : List PyStr) : PyStr := joinSep ' ' ws

/-- Python's `str.strip()`: drop leading and trailing whitespace. -/
def pyStrip (s : PyStr) : PyStr :=
  ((s.dropWhile isSpace).reverse.dropWhile isSpace).reverse

/-- Python's `str.lower()` (ASCII case folding suffices here). -/
def pyLower (s : PyStr) : PyStr := s.map Char.toLower

/-- Python's `str.replace("\n", " ")`. -/
def replaceNl (s : PyStr) : PyStr := s.map (fun c => if c = '\n' then ' ' else c)

/-- Python's `s.startswith(pre)`. -/
def py_startswith (s pre : PyStr) : Bool := s.take pre.length == pre

/-- Python's `s.endswith(suf)`. -/
def py_endswith (s suf : PyStr) : Bool := s.reverse.take suf.length == suf.reverse

/-- Helper for splitting on a fixed separator character, keeping empty pieces
(Python's `str.split(sep)` with an explicit separator). -/
def splitChAux (sep : Char) : List Char → List Char → List PyStr
  | [], acc => [acc.reverse]
  | c :: cs, acc =>
    if c = sep then acc.reverse :: splitChAux sep cs []
    else splitChAux sep cs (c :: acc)

/-- Python's `s.split(sep)` for a one-character separator (empty pieces kept). -/
def pySplitCh (sep : Char) (s : PyStr) : List PyStr := splitChAux sep s []

/-- The components of `pathlib.Path(s)`: the string is split on `/`, and empty
segments as well as `"."` segments are discarded (pathlib normalises both away). -/
def pathSegments (s : PyStr) : List PyStr :=
  (pySplitCh '/' s).filter (fun seg => !seg.isEmpty && seg != ['.'])

/-- Python's `pathlib.Path(s).name`: the final path component (empty when there
is none, e.g. for `""` or `"/"`). -/
def pathName (s : PyStr) : PyStr := (pathSegments s).getLastD []

/-- Python's `str(pathlib.Path(s).parent)`: all components but the last, `"."`
(or `"/"` for an absolute path) when there is at most one component. -/
def pathParent (s : PyStr) : PyStr :=
  let isAbs := py_startswith s ['/']
  match (pathSegments s).dropLast with
  | [] => if isAbs then ['/'] else ['.']
  | ps => (if isAbs then ['/'] else []) ++ joinSep '/' ps

/-- The index of the last occurrence of `c` in `s` (Python's `str.rfind`),
`none` when absent. -/
def rfindIdx (s : PyStr) (c : Char) : Option Nat :=
  match s.reverse.findIdx? (· == c) with
  | none => none
  | some j => some (s.length - 1 - j)

/-- Python's `pathlib.Path(s).suffix`: the extension of the final component,
including the leading dot; empty unless the last dot of the name sits strictly
inside it (`0 < i < len(name) - 1` in pathlib's implementation). -/
def pathSuffix (s : PyStr) : PyStr :=
  let name := pathName s
  match rfindIdx name '.' with
  | none => []
  | some i => if 0 < i && i + 1 < name.length then name.drop i else []

/-- The `DocumentType` enumeration of `loader.py` (one member per supported
file extension; `JPEG` and `JPG` are distinct members with values `"jpeg"`
and `"jpg"`). -/
inductive DocumentType where
  | BMP | CSV | DOC | DOCX | EML | EPUB | HEIC | HTML | JPEG | JPG
  | MARKDOWN | MSG | ODT | ORG | P7S | PDF | PNG | PPT | PPTX | RST
  | RTF | TIFF | TEXT | TSV | XLS | XLSX | XML
deriving DecidableEq

/-- The value-to-member table of the `DocumentType` enum (Python's
`DocumentType(extension)` lookup). -/
def supportedPairs : List (PyStr × DocumentType) :=
  [ ("bmp".toList, .BMP), ("csv".toList, .CSV), ("doc".toList, .DOC),
    ("docx".toList, .DOCX), ("eml".toList, .EML), ("epub".toList, .EPUB),
    ("heic".toList, .HEIC), ("html".toList, .HTML), ("jpeg".toList, .JPEG),
    ("jpg".toList, .JPG), ("md".toList, .MARKDOWN), ("msg".toList, .MSG),
    ("odt".toList, .ODT), ("org".toList, .ORG), ("p7s".toList, .P7S),
    ("pdf".toList, .PDF), ("png".toList, .PNG), ("ppt".toList, .PPT),
    ("pptx".toList, .PPTX), ("rst".toList, .RST), ("rtf".toList, .RTF),
    ("tiff".toList, .TIFF), ("txt".toList, .TEXT), ("tsv".toList, .TSV),
    ("xls".toList, .XLS), ("xlsx".toList, .XLSX), ("xml".toList, .XML) ]

/-- The extensions carried by the `DocumentType` enum. -/
def supportedExts : List PyStr := supportedPairs.map Prod.fst

/-- Python's `DocumentType(extension)`: `some` member on a known value,
`none` where the enum constructor would raise `ValueError`. -/
def extFromString (e : PyStr) : Option DocumentType :=
  (supportedPairs.find? (fun p => p.1 == e)).map Prod.snd

/-- The URL test of `DocumentType.from_file`:
`file_path.lower().startswith(("http://", "https://", "www."))`. -/
def urlLike (file_path : PyStr) : Bool :=
  py_startswith (pyLower file_path) "http://".toList ||
  py_startswith (pyLower file_path) "https://".toList ||
  py_startswith (pyLower file_path) "www.".toList

/-- The extension computed by `DocumentType.from_file`:
`Path(file_path).suffix.lower().lstrip('.')`, then `"jpg"` replaced by
`"jpeg"`. -/
def normExt (file_path : PyStr) : PyStr :=
  let extension := (pyLower (pathSuffix file_path)).dropWhile (· == '.')
  if extension == "jpg".toList then "jpeg".toList else extension

/-- `DocumentType.from_file`: URL-like sources are classified as `HTML`
without looking at the extension; otherwise the normalised extension is looked
up in the enum, raising (`Except.error`) when it is unsupported. -/
def from_file (file_path : PyStr) : Except PyStr DocumentType :=
  if urlLike file_path then .ok .HTML
  else
    match extFromString (normExt file_path) with
    | some dt => .ok dt
    | none => .error ("Unsupported file type: ".toList ++ normExt file_path)

/-- `DocumentProcessor.__init__`: `doc_types` is populated eagerly, one
`from_file` call per source in list order; the first unsupported source makes
the whole construction raise. -/
def initDocTypes : List PyStr → Except PyStr (List (PyStr × DocumentType))
  | [] => .ok []
  | s :: rest =>
    match from_file s with
    | .error e => .error e
    | .ok dt =>
      match initDocTypes rest with
      | .error e => .error e
      | .ok m => .ok ((s, dt) :: m)

/-- The `mime_types` table of `DocumentProcessor._get_filetype`, with its
`.get(..., "application/octet-stream")` default. -/
def mimeOf (dt : DocumentType) : PyStr :=
  match dt with
  | .PDF => "application/pdf".toList
  | .XLSX => "application/vnd.openxmlformats-officedocument.spreadsheetml.sheet".toList
  | .XLS => "application/vnd.ms-excel".toList
  | .DOCX => "application/vnd.openxmlformats-officedocument.wordprocessingml.document".toList
  | .DOC => "application/msword".toList
  | .PPTX => "application/vnd.openxmlformats-officedocument.presentationml.presentation".toList
  | .PPT => "application/vnd.ms-powerpoint".toList
  | .HTML => "text/html".toList
  | .TEXT => "text/plain".toList
  | .MARKDOWN => "text/markdown".toList
  | .XML => "application/xml".toList
  | .CSV => "text/csv".toList
  | .TSV => "text/tab-separated-values".toList
  | .RTF => "application/rtf".toList
  | .EPUB => "application/epub+zip".toList
  | .MSG => "application/vnd.ms-outlook".toList
  | .EML => "message/rfc822".toList
  | .PNG => "image/png".toList
  | .JPEG => "image/jpeg".toList
  | .TIFF => "image/tiff".toList
  | .BMP => "image/bmp".toList
  | .HEIC => "image/heic".toList
  | _ => "application/octet-stream".toList

/-- `DocumentProcessor._get_filetype`: looks up the source's document type
(recorded at construction by `from_file`, so the lookup is re-derived here;
construction succeeding guarantees the `.ok` branch) and maps it through the
MIME table. -/
def get_filetype (source : PyStr) : PyStr :=
  match from_file source with
  | .ok dt => mimeOf dt
  | .error _ => "application/octet-stream".toList

/-- The metadata attributes of an extracted element that `loader.py` reads
(`page_number`, `parent_id`, `text_as_html`), plus the keys the OCR bridge
writes.  `none` models an absent attribute / key. -/
structure ElementMetadata where
  page_number : Option Nat := none
  parent_id : Option Nat := none
  text_as_html : Option PyStr := none
  filename : Option PyStr := none
  file_directory : Option PyStr := none
  filetype : Option PyStr := none
  last_modified : Option PyStr := none
deriving DecidableEq

/-- An extracted element (the `unstructured` `Element` surface that
`loader.py` touches): optional `text` (`none` models a missing attribute),
optional `category`, an identity token and metadata. -/
structure Element where
  text : Option PyStr := none
  category : Option PyStr := none
  id : Nat := 0
  metadata : ElementMetadata := {}
deriving DecidableEq

/-- The metadata dict attached to an output `Document` by
`_process_elements_to_document` (`chunk_number` present only on chunked
pages). -/
structure DocMetadata where
  filename : PyStr
  filetype : PyStr
  page_number : Nat
  chunk_number : Option Nat
  source : PyStr
deriving DecidableEq

/-- The `Document` dataclass of `loader.py`. -/
structure Document where
  page_content : PyStr
  metadata : DocMetadata
deriving DecidableEq

/-- `ProcessingConfig`.  `custom_splitter` takes the page text and the chunk
size and returns the chunk list, or raises (`Except.error`); `chunk_size` is a
non-negative integer here (the spec requires it positive). -/
structure ProcessingConfig where
  chunk_size : Nat := 500
  hi_res_pdf : Bool := true
  infer_tables : Bool := false
  custom_splitter : Option (PyStr → Nat → Except PyStr (List PyStr)) := none
  max_workers : Nat := 4
  remove_headers : Bool := false
  remove_references : Bool := false
  filter_empty_elements : Bool := true
  ocr_for_images : Bool := false
  ocr_model : PyStr := "tesseract".toList

/-- The empty-element test of `_filter_elements`:
`hasattr(el, 'text') and el.text and el.text.strip()`. -/
def emptyOk (el : Element) : Bool :=
  match el.text with
  | some t => !t.isEmpty && !(pyStrip t).isEmpty
  | none => false

/-- Stage 1 of `_filter_elements` (`filter_empty_elements`). -/
def emptyStep (cfg : ProcessingConfig) (els : List Element) : List Element :=
  if cfg.filter_empty_elements then els.filter emptyOk else els

/-- Stage 2 of `_filter_elements` (`remove_headers`):
`getattr(el, 'category', '') != "Header"`. -/
def headerStep (cfg : ProcessingConfig) (els : List Element) : List Element :=
  if cfg.remove_headers then
    els.filter (fun el => el.category.getD [] != "Header".toList)
  else els

/-- The references-title test of `_filter_elements`:
`el.text and el.text.strip().lower() == "references" and getattr(el, 'category', '') == "Title"`. -/
def isRefTitle (el : Element) : Bool :=
  match el.text with
  | none => false
  | some t =>
      !t.isEmpty && (pyStrip t).map Char.toLower == "references".toList &&
      el.category.getD [] == "Title".toList

/-- Stage 3 of `_filter_elements` (`remove_references`).  Accessing `el.text`
on an element that lacks the attribute raises `AttributeError`; this is the
only raise site inside the `try`, and the `except` swallows it leaving
`filtered` unchanged — modelled by the leading `any` guard.  Otherwise the
first references title (if any) is located and every element whose
`metadata.parent_id` equals its id is dropped. -/
def refStep (filtered : List Element) : List Element :=
  if filtered.any (fun el => el.text.isNone) then filtered
  else
    match filtered.filter isRefTitle with
    | [] => filtered
    | t :: _ => filtered.filter (fun el => el.metadata.parent_id != some t.id)

/-- The `remove_references` toggle around `refStep`. -/
def refStepIf (cfg : ProcessingConfig) (els : List Element) : List Element :=
  if cfg.remove_references then refStep els else els

/-- `DocumentProcessor._filter_elements`: early return on an empty input, then
the three toggleable stages in their fixed order. -/
def filter_elements (cfg : ProcessingConfig) (elements : List Element) : List Element :=
  if elements.isEmpty then elements
  else refStepIf cfg (headerStep cfg (emptyStep cfg elements))

/-- The sort key of `_combine_elements_by_page`:
`getattr(element.metadata, 'page_number', 1)`. -/
def getPage (el : Element) : Nat := el.metadata.page_number.getD 1

/-- Stable insertion of `x` into a list: before the first element whose key is
not below `key x` (so equal keys keep their original relative order). -/
def insertByKey (key : α → Nat) (x : α) : List α → List α
  | [] => [x]
  | y :: ys => if key x ≤ key y then x :: y :: ys else y :: insertByKey key x ys

/-- Python's `sorted(elements, key=...)`, which is specified to be a stable
sort; modelled by stable insertion sort. -/
def sortByKey (key : α → Nat) : List α → List α
  | [] => []
  | x :: xs => insertByKey key x (sortByKey key xs)

/-- Helper for `groupbyList`: extends the current run (key `k`, members `acc`
reversed) while the key matches, sealing it when the key changes. -/
def groupbyAux (key : α → Nat) (k : Nat) (acc : List α) : List α → List (Nat × List α)
  | [] => [(k, acc.reverse)]
  | x :: xs =>
    if key x == k then groupbyAux key k (x :: acc) xs
    else (k, acc.reverse) :: groupbyAux key (key x) [x] xs

/-- Python's `itertools.groupby(xs, key=...)`: maximal runs of consecutive
elements sharing a key, with that key. -/
def groupbyList (key : α → Nat) : List α → List (Nat × List α)
  | [] => []
  | x :: xs => groupbyAux key (key x) [x] xs

/-- The text contributed by one element to its page:
`el.text for el in page_elements if hasattr(el, 'text') and el.text`. -/
def textContrib (el : Element) : Option PyStr :=
  match el.text with
  | some t => if t.isEmpty then none else some t
  | none => none

/-- `DocumentProcessor._combine_elements_by_page`: stable-sort by page number,
group consecutive equal pages, join each group's texts with single spaces,
replace newlines with spaces and strip; pages whose text comes out empty are
dropped. -/
def combine_elements_by_page (elements : List Element) : List PyStr :=
  (groupbyList getPage (sortByKey getPage elements)).filterMap (fun pg =>
    let page_content := pyStrip (replaceNl (joinWords (pg.2.filterMap textContrib)))
    if page_content.isEmpty then none else some page_content)

/-- `DocumentProcessor._should_chunk_content`:
`len(content.split()) > chunk_size`. -/
def should_chunk_content (content : PyStr) (chunk_size : Nat) : Bool :=
  (pySplit content).length > chunk_size

/-- The loop of `_chunk_content`'s default greedy packer: words are appended
to the current bucket unless that would push its count past `chunk_size`, in
which case the non-empty bucket is sealed and a new one starts with the word;
a word's count contribution is `len(word.split())`, exactly as in the source. -/
def chunkLoop (chunk_size : Nat) : List PyStr → List PyStr → Nat → List PyStr
  | [], current_chunk, _ =>
    if current_chunk.isEmpty then [] else [joinWords current_chunk]
  | w :: ws, current_chunk, current_count =>
    if current_count + (pySplit w).length > chunk_size then
      (if current_chunk.isEmpty then [] else [joinWords current_chunk]) ++
        chunkLoop chunk_size ws [w] (pySplit w).length
    else
      chunkLoop chunk_size ws (current_chunk ++ [w]) (current_count + (pySplit w).length)

/-- `DocumentProcessor._chunk_content`: the configured custom splitter verbatim
when present (it may raise), otherwise the default greedy word packer. -/
def chunk_content (cfg : ProcessingConfig) (content : PyStr) (chunk_size : Nat) :
    Except PyStr (List PyStr) :=
  match cfg.custom_splitter with
  | some f => f content chunk_size
  | none => .ok (chunkLoop chunk_size (pySplit content) [] 0)

/-- Pairs each list element with its index, starting from `i`
(Python's `enumerate(l, i)`). -/
def enumFrom (i : Nat) : List α → List (Nat × α)
  | [] => []
  | x :: xs => (i, x) :: enumFrom (i + 1) xs

/-- The per-page body of `_process_elements_to_document`: chunk the page when
its word count exceeds `chunk_size` (1-based `chunk_number` per chunk),
otherwise emit the whole page as one `Document` with no `chunk_number` key. -/
def pageDocs (cfg : ProcessingConfig) (source : PyStr) (idx : Nat) (content : PyStr) :
    Except PyStr (List Document) :=
  if should_chunk_content content cfg.chunk_size then
    match chunk_content cfg content cfg.chunk_size with
    | .error e => .error e
    | .ok chunks =>
      .ok ((enumFrom 1 chunks).map (fun p =>
        { page_content := p.2
          metadata := { filename := pathName source, filetype := get_filetype source,
                        page_number := idx, chunk_number := some p.1, source := source } }))
  else
    .ok [{ page_content := content
           metadata := { filename := pathName source, filetype := get_filetype source,
                         page_number := idx, chunk_number := none, source := source } }]

/-- The page loop of `_process_elements_to_document`; a raising custom
splitter aborts at the first failing page, as in Python. -/
def pagesToDocs (cfg : ProcessingConfig) (source : PyStr) :
    List (Nat × PyStr) → Except PyStr (List Document)
  | [] => .ok []
  | p :: rest =>
    match pageDocs cfg source p.1 p.2 with
    | .error e => .error e
    | .ok ds =>
      match pagesToDocs cfg source rest with
      | .error e => .error e
      | .ok rs => .ok (ds ++ rs)

/-- `DocumentProcessor._process_elements_to_document`: aggregate filtered
elements into pages, then enumerate the non-empty pages from 1 and emit their
documents. -/
def process_elements_to_document (cfg : ProcessingConfig) (elements : List Element)
    (source : PyStr) : Except PyStr (List Document) :=
  pagesToDocs cfg source (enumFrom 1 (combine_elements_by_page elements))

/-- `DocumentProcessor._create_element_from_ocr`: wraps the OCR text in a
single synthetic element.  The element object is `Text(text=text)` from the
external `unstructured` library, whose `category` label is modelled from the
spec ("category \"text\"") and whose auto-generated identity token is
immaterial here (0); its `metadata` is replaced wholesale by the dict built in
the source, whose `text_as_html` entry is the `text` argument itself, and
whose `last_modified` entry is the wall-clock timestamp `now`
(`datetime.datetime.now().isoformat()`, an external input). -/
def create_element_from_ocr (now : PyStr) (text : PyStr) (file_path : PyStr) :
    List Element :=
  [{ text := some text
     category := some "text".toList
     id := 0
     metadata := { page_number := some 1
                   parent_id := none
                   text_as_html := some text
                   filename := some (pathName file_path)
                   file_directory := some (pathParent file_path)
                   filetype := some (get_filetype file_path)
                   last_modified := some now } }]

/-- The external collaborators invoked by `_get_elements`, plus the clock read
by the OCR bridge.  Each call may raise, modelled with `Except`:
`partition_pdf` receives the filename, the strategy string and the
table-inference flag; `partition_office` the content type (`"docx"`/`"pptx"`)
and the filename; `partition_generic` models
`import_unstructured_partition(doc_type)` followed by the call (an import
failure is an error). -/
structure Adapters where
  ocr_extract : PyStr → Except PyStr PyStr
  ocr_now : PyStr
  partition_pdf : PyStr → PyStr → Bool → Except PyStr (List Element)
  partition_xlsx : PyStr → Except PyStr (List Element)
  partition_html : PyStr → Except PyStr (List Element)
  partition_image : PyStr → Except PyStr (List Element)
  partition_email : PyStr → Except PyStr (List Element)
  partition_office : PyStr → PyStr → Except PyStr (List Element)
  partition_generic : PyStr → PyStr → Except PyStr (List Element)

/-- The image-extension test of `_get_elements`:
`file_path.lower().endswith((".png", ".jpg", ".jpeg", ".tiff", ".bmp", ".heic"))`
(applied to the already-lowered path). -/
def isImageExt (lp : PyStr) : Bool :=
  py_endswith lp ".png".toList || py_endswith lp ".jpg".toList ||
  py_endswith lp ".jpeg".toList || py_endswith lp ".tiff".toList ||
  py_endswith lp ".bmp".toList || py_endswith lp ".heic".toList

/-- The scheme test of `urllib.parse.urlparse(file_path).scheme`: a scheme is
present when a colon exists and the text before the first colon is a letter
followed by letters, digits, `+`, `-` or `.`. -/
def urlHasScheme (s : PyStr) : Bool :=
  let pre := s.takeWhile (· != ':')
  pre.length < s.length &&
    match pre with
    | [] => false
    | c :: rest => c.isAlpha && rest.all (fun d => d.isAlpha || d.isDigit || d = '+' || d = '-' || d = '.')

/-- The piece after the last dot of the lowered path
(`file_path.lower().split(".")[-1]`; the whole string when it has no dot). -/
def lastDotPiece (lp : PyStr) : PyStr := (pySplitCh '.' lp).getLastD []

/-- The body of `DocumentProcessor._get_elements` before its `except` clause:
the priority-ordered dispatch chain, each branch invoking its external
adapter.  The OCR branch wraps the OCR text; the spreadsheet branch drops
elements lacking a `text_as_html` metadata entry; the web branch prepends
`https://` when the identifier has no URL scheme. -/
def get_elements_raw (A : Adapters) (cfg : ProcessingConfig) (file_path : PyStr) :
    Except PyStr (List Element) :=
  let lp := pyLower file_path
  if isImageExt lp && cfg.ocr_for_images then
    match A.ocr_extract file_path with
    | .error e => .error e
    | .ok text => .ok (create_element_from_ocr A.ocr_now text file_path)
  else if py_endswith lp ".pdf".toList then
    A.partition_pdf file_path
      (if cfg.hi_res_pdf then "hi_res".toList else "fast".toList) cfg.infer_tables
  else if py_endswith lp ".xlsx".toList || py_endswith lp ".xls".toList then
    match A.partition_xlsx file_path with
    | .error e => .error e
    | .ok els => .ok (els.filter (fun el => el.metadata.text_as_html.isSome))
  else if py_startswith lp "www".toList || py_startswith lp "http".toList then
    A.partition_html
      (if urlHasScheme file_path then file_path else "https://".toList ++ file_path)
  else if isImageExt lp then
    A.partition_image file_path
  else if py_endswith lp ".eml".toList || py_endswith lp ".msg".toList then
    A.partition_email file_path
  else if py_endswith lp ".docx".toList || py_endswith lp ".doc".toList ||
          py_endswith lp ".pptx".toList || py_endswith lp ".ppt".toList then
    A.partition_office
      (if py_endswith lp ".docx".toList || py_endswith lp ".doc".toList
       then "docx".toList else "pptx".toList)
      file_path
  else
    A.partition_generic (lastDotPiece lp) file_path

/-- `DocumentProcessor._get_elements`: the dispatch body with its blanket
`except` clause — any adapter error is logged and downgraded to zero
elements. -/
def get_elements (A : Adapters) (cfg : ProcessingConfig) (file_path : PyStr) :
    List Element :=
  match get_elements_raw A cfg file_path with
  | .ok els => els
  | .error _ => []

/-- One source's full pipeline as run inside `process`'s `try`: extraction
(with its internal error downgrade), filtering, aggregation and chunking.
The only raise that can escape to the orchestrator is a raising custom
splitter, surfaced as `Except.error`. -/
def pipelineE (A : Adapters) (cfg : ProcessingConfig) (source : PyStr) :
    Except PyStr (List Document) :=
  process_elements_to_document cfg (filter_elements cfg (get_elements A cfg source)) source

/-- The value stored for one source by the orchestrator: the pipeline's
documents, or the empty list when the pipeline raised
(`except`: `results[Path(source).name] = []`). -/
def sourceResult (A : Adapters) (cfg : ProcessingConfig) (source : PyStr) :
    List Document :=
  match pipelineE A cfg source with
  | .ok docs => docs
  | .error _ => []

/-- Insertion into a Python dict modelled as an association list: an existing
key is overwritten in place, a new key is appended. -/
def dictInsert (m : List (PyStr × β)) (k : PyStr) (v : β) : List (PyStr × β) :=
  match m with
  | [] => [(k, v)]
  | kv :: rest => if kv.1 == k then (k, v) :: rest else kv :: dictInsert rest k v

/-- Lookup in a Python dict modelled as an association list. -/
def dictGet (m : List (PyStr × β)) (k : PyStr) : Option β :=
  (m.find? (fun kv => kv.1 == k)).map Prod.snd

/-- `DocumentProcessor.process` for one completion order of the worker pool:
the `as_completed` loop stores each source's result (empty on a raising
pipeline) under `Path(source).name`.  `order` is the completion order, a
permutation of the submitted sources; the mapping itself is assembled by the
orchestrating thread only. -/
def processRun (A : Adapters) (cfg : ProcessingConfig) (order : List PyStr) :
    List (PyStr × List Document) :=
  order.foldl (fun m s => dictInsert m (pathName s) (sourceResult A cfg s)) []

/-! ### Proof-side abstractions and concrete fixtures -/

/-- The word buckets produced by `chunkLoop`, before each bucket is joined
back into a string (proof-side abstraction of the greedy packer). -/
def buckets (chunk_size : Nat) : List PyStr → List PyStr → Nat → List (List PyStr)
  | [], cur, _ => if cur.isEmpty then [] else [cur]
  | w :: ws, cur, cnt =>
    if cnt + (pySplit w).length > chunk_size then
      (if cur.isEmpty then [] else [cur]) ++ buckets chunk_size ws [w] (pySplit w).length
    else
      buckets chunk_size ws (cur ++ [w]) (cnt + (pySplit w).length)

/-- Modelled from the spec: HTML escaping of text (the spec's "HTML-escaped
copy" — Python's `html.escape`, which replaces `&`, `<`, `>`, `"` and the
apostrophe by character references).  `loader.py` itself never escapes; this
definition exists only to compare the stored metadata against the spec's
words. -/
def htmlEscape (s : PyStr) : PyStr :=
  s.flatMap (fun c =>
    if c = '&' then "&amp;".toList
    else if c = '<' then "&lt;".toList
    else if c = '>' then "&gt;".toList
    else if c = '"' then "&quot;".toList
    else if c = '\'' then "&#x27;".toList
    else [c])

/-- A fixture: adapters all of whose capabilities raise. -/
def failAdapters : Adapters where
  ocr_extract := fun _ => .error "ocr failed".toList
  ocr_now := []
  partition_pdf := fun _ _ _ => .error "fail".toList
  partition_xlsx := fun _ => .error "fail".toList
  partition_html := fun _ => .error "fail".toList
  partition_image := fun _ => .error "fail".toList
  partition_email := fun _ => .error "fail".toList
  partition_office := fun _ _ => .error "fail".toList
  partition_generic := fun _ _ => .error "fail".toList

/-- A fixture: adapters whose generic strategy succeeds only for the file
"ok/x.txt", yielding one one-page element reading "hello"; every other call
raises. -/
def demoAdapters : Adapters :=
  { failAdapters with
    partition_generic := fun _ fname =>
      if fname == "ok/x.txt".toList then
        .ok [{ text := some "hello".toList, id := 1,
               metadata := { page_number := some 1 } }]
      else .error "boom".toList }

/-- A fixture: adapters whose OCR capability always returns the text "a<b"
(which HTML escaping would alter), with a fixed clock. -/
def ocrAdapters : Adapters :=
  { failAdapters with
    ocr_extract := fun _ => .ok "a<b".toList
    ocr_now := "2026-01-01T00:00:00".toList }

/-- A fixture: a "References" title element. -/
def refTitleEl : Element :=
  { text := some " References ".toList, category := some "Title".toList, id := 7 }

/-- A fixture: a direct child of the references title. -/
def refChildEl : Element :=
  { text := some "ref one".toList, id := 8, metadata := { parent_id := some 7 } }

/-- A fixture: an ordinary body element. -/
def bodyEl : Element :=
  { text := some "hello body".toList, id := 9 }

/-- A fixture: elements carrying non-contiguous page numbers 5, 1, 5, 3 plus a
page whose text is whitespace only. -/
def pageEls : List Element :=
  [ { text := some "p5a".toList, id := 1, metadata := { page_number := some 5 } },
    { text := some "p1".toList, id := 2, metadata := { page_number := some 1 } },
    { text := some "p5b".toList, id := 3, metadata := { page_number := some 5 } },
    { text := some "p3".toList, id := 4, metadata := { page_number := some 3 } },
    { text := some " \n ".toList, id := 5, metadata := { page_number := some 2 } } ]

/-! ### Lemmas about `pySplit` and `joinWords` -/

theorem splitWsAux_append_space (a b : List Char) (acc : List Char) :
    splitWsAux (a ++ ' ' :: b) acc = splitWsAux a acc ++ splitWsAux b [] := by
  induction a generalizing acc with
  | nil =>
    by_cases h : acc.isEmpty <;> simp [splitWsAux, isSpace, h]
  | cons c cs ih =>
    by_cases h : isSpace c
    · by_cases h2 : acc.isEmpty <;> simp [splitWsAux, h, h2, ih]
    · simp [splitWsAux, h, ih]

theorem mem_splitWsAux (s : List Char) (acc : List Char)
    (hacc : ∀ c ∈ acc, isSpace c = false) :
    ∀ w ∈ splitWsAux s acc, w ≠ [] ∧ ∀ c ∈ w, isSpace c = false := by
  induction s generalizing acc with
  | nil =>
    intro w hw
    by_cases h : acc.isEmpty
    · simp [splitWsAux, h] at hw
    · simp [splitWsAux, h] at hw
      subst hw
      constructor
      · simpa [List.isEmpty_iff] using h
      · intro c hc; exact hacc c (List.mem_reverse.mp hc)
  | cons c cs ih =>
    intro w hw
    by_cases h : isSpace c
    · by_cases h2 : acc.isEmpty
      · simp [splitWsAux, h, h2] at hw
        exact ih [] (by simp) w hw
      · simp [splitWsAux, h, h2] at hw
        rcases hw with hw | hw
        · subst hw
          constructor
          · simpa [List.isEmpty_iff] using h2
          · intro d hd; exact hacc d (List.mem_reverse.mp hd)
        · exact ih [] (by simp) w hw
    · simp [splitWsAux, h] at hw
      refine ih (c :: acc) ?_ w hw
      intro d hd
      rcases List.mem_cons.mp hd with rfl | hd
      · simpa using h
      · exact hacc d hd

theorem splitWsAux_no_space (w : List Char) (acc : List Char)
    (hw : ∀ c ∈ w, isSpace c = false) (hne : acc ≠ [] ∨ w ≠ []) :
    splitWsAux w acc = [acc.reverse ++ w] := by
  induction w generalizing acc with
  | nil =>
    have h : acc.isEmpty = false := by
      rcases hne with h | h
      · simpa [List.isEmpty_iff] using h
      · exact absurd rfl h
    simp [splitWsAux, h]
  | cons c cs ih =>
    have hc : isSpace c = false := hw c (by simp)
    have hrest : ∀ d ∈ cs, isSpace d = false := fun d hd => hw d (by simp [hd])
    simp only [splitWsAux, hc, Bool.false_eq_true, if_false]
    rw [ih (c :: acc) hrest (Or.inl (by simp))]
    simp

theorem pySplit_tokens (s : PyStr) :
    ∀ w ∈ pySplit s, w ≠ [] ∧ ∀ c ∈ w, isSpace c = false :=
  mem_splitWsAux s [] (by simp)

theorem pySplit_single (w : PyStr) (hw : ∀ c ∈ w, isSpace c = false)
    (hne : w ≠ []) : pySplit w = [w] := by
  simpa [pySplit] using splitWsAux_no_space w [] hw (Or.inr hne)

theorem pySplit_joinWords (ws : List PyStr) :
    pySplit (joinWords ws) = (ws.map pySplit).flatten := by
  induction ws with
  | nil => rfl
  | cons w ws ih =>
    cases ws with
    | nil => simp [joinWords, joinSep]
    | cons x ys =>
      have h1 : joinWords (w :: x :: ys) = w ++ ' ' :: joinWords (x :: ys) := rfl
      have h2 : pySplit (w ++ ' ' :: joinWords (x :: ys)) =
          pySplit w ++ pySplit (joinWords (x :: ys)) :=
        splitWsAux_append_space w (joinWords (x :: ys)) []
      rw [h1, h2, ih]
      simp

theorem pySplit_joinWords_of_tokens (g : List PyStr)
    (h : ∀ w ∈ g, w ≠ [] ∧ ∀ c ∈ w, isSpace c = false) :
    pySplit (joinWords g) = g := by
  rw [pySplit_joinWords]
  induction g with
  | nil => rfl
  | cons w ws ih =>
    have hw := h w (by simp)
    rw [List.map_cons, List.flatten_cons, pySplit_single w hw.2 hw.1,
      ih (fun x hx => h x (by simp [hx]))]
    simp

/-! ### The greedy packer, abstracted to word buckets -/

theorem chunkLoop_eq_buckets (cs : Nat) (ws cur : List PyStr) (cnt : Nat) :
    chunkLoop cs ws cur cnt = (buckets cs ws cur cnt).map joinWords := by
  induction ws generalizing cur cnt with
  | nil => by_cases h : cur.isEmpty <;> simp [chunkLoop, buckets, h]
  | cons w ws ih =>
    by_cases h : cnt + (pySplit w).length > cs
    · by_cases h2 : cur.isEmpty <;> simp [chunkLoop, buckets, h, h2, ih]
    · simp [chunkLoop, buckets, h, ih]

theorem buckets_flatten (cs : Nat) (ws cur : List PyStr) (cnt : Nat) :
    (buckets cs ws cur cnt).flatten = cur ++ ws := by
  induction ws generalizing cur cnt with
  | nil =>
    by_cases h : cur.isEmpty
    · simp [buckets, h, List.isEmpty_iff.mp h]
    · simp [buckets, h]
  | cons w ws ih =>
    by_cases h : cnt + (pySplit w).length > cs
    · by_cases h2 : cur.isEmpty
      · have hc : cur = [] := List.isEmpty_iff.mp h2
        simp [buckets, h, h2, ih, hc]
      · simp [buckets, h, h2, ih]
    · simp [buckets, h, ih]

theorem buckets_length (cs : Nat) (hcs : 1 ≤ cs) (ws cur : List PyStr) (cnt : Nat)
    (hw : ∀ w ∈ ws, (pySplit w).length = 1) (hcnt : cnt = cur.length)
    (hcur : cur.length ≤ cs) :
    ∀ g ∈ buckets cs ws cur cnt, g.length ≤ cs := by
  induction ws generalizing cur cnt with
  | nil =>
    intro g hg
    by_cases h : cur.isEmpty
    · simp [buckets, h] at hg
    · simp [buckets, h] at hg
      subst hg; exact hcur
  | cons w ws ih =>
    intro g hg
    have hw1 : (pySplit w).length = 1 := hw w (by simp)
    have hwrest : ∀ x ∈ ws, (pySplit x).length = 1 := fun x hx => hw x (by simp [hx])
    by_cases h : cnt + (pySplit w).length > cs
    · simp only [buckets, h, if_true] at hg
      rcases List.mem_append.mp hg with hg | hg
      · by_cases h2 : cur.isEmpty
        · simp [h2] at hg
        · simp [h2] at hg
          subst hg; exact hcur
      · exact ih [w] (pySplit w).length hwrest (by simp [hw1]) (by simp [hw1, hcs]) g hg
    · simp only [buckets, h, if_false] at hg
      refine ih (cur ++ [w]) (cnt + (pySplit w).length) hwrest ?_ ?_ g hg
      · simp [hcnt, hw1]
      · have : cnt + (pySplit w).length ≤ cs := Nat.le_of_not_lt h
        simpa [hcnt, hw1] using this

/-- C3: for every page text and every positive chunk size, with no custom
splitter configured, the default greedy packer succeeds and returns chunks
whose single-space join reproduces the page's whitespace-separated word
sequence exactly, each chunk holding at most `chunk_size` words. -/
theorem chunking_law (cfg : ProcessingConfig) (content : PyStr) (chunk_size : Nat)
    (hpos : 0 < chunk_size) (hns : cfg.custom_splitter = none) :
    ∃ chunks, chunk_content cfg content chunk_size = .ok chunks ∧
      pySplit (joinWords chunks) = pySplit content ∧
      ∀ c ∈ chunks, (pySplit c).length ≤ chunk_size := by
  have htokens : ∀ g ∈ buckets chunk_size (pySplit content) [] 0,
      ∀ w ∈ g, w ≠ [] ∧ ∀ c ∈ w, isSpace c = false := by
    intro g hg w hwg
    have hfl : w ∈ (buckets chunk_size (pySplit content) [] 0).flatten :=
      List.mem_flatten.mpr ⟨g, hg, hwg⟩
    rw [buckets_flatten] at hfl
    exact pySplit_tokens content w (by simpa using hfl)
  refine ⟨chunkLoop chunk_size (pySplit content) [] 0,
    by simp [chunk_content, hns], ?_, ?_⟩
  · rw [chunkLoop_eq_buckets, pySplit_joinWords, List.map_map]
    have hfun : ∀ g ∈ buckets chunk_size (pySplit content) [] 0,
        (pySplit ∘ joinWords) g = id g := fun g hg =>
      pySplit_joinWords_of_tokens g (htokens g hg)
    rw [List.map_congr_left hfun, List.map_id, buckets_flatten]
    simp
  · intro c hc
    rw [chunkLoop_eq_buckets] at hc
    rcases List.mem_map.mp hc with ⟨g, hg, rfl⟩
    have hlen : g.length ≤ chunk_size := by
      refine buckets_length chunk_size hpos (pySplit content) [] 0 ?_ rfl
        (by simp [Nat.le_of_lt hpos]) g hg
      intro w hw
      have hp := pySplit_tokens content w hw
      simp [pySplit_single w hp.2 hp.1]
    rw [pySplit_joinWords_of_tokens g (htokens g hg)]
    exact hlen

/-- Witness for C3 at a concrete input: page text "aa bb cc" with
chunk size 2 and the default configuration (no custom splitter). -/
theorem chunking_law_witness :
    ∃ chunks, chunk_content {} "aa bb cc".toList 2 = .ok chunks ∧
      pySplit (joinWords chunks) = pySplit "aa bb cc".toList ∧
      ∀ c ∈ chunks, (pySplit c).length ≤ 2 :=
  chunking_law {} "aa bb cc".toList 2 (by decide) rfl

/-- C9: the page text "a b c d e" with chunk size 2 and no custom splitter
yields exactly the chunks ["a b", "c d", "e"], in that order. -/
theorem example_default_chunks :
    chunk_content {} "a b c d e".toList 2 =
      .ok ["a b".toList, "c d".toList, "e".toList] := rfl

/-! ### Construction-time format validation (C5) -/

theorem extFromString_eq_none {e : PyStr} (h : e ∉ supportedExts) :
    extFromString e = none := by
  have hnone : supportedPairs.find? (fun p => p.1 == e) = none := by
    refine List.find?_eq_none.mpr ?_
    intro p hp
    simp only [beq_iff_eq]
    intro heq
    exact h (heq ▸ List.mem_map_of_mem Prod.fst hp)
  simp [extFromString, hnone]

theorem from_file_unsupported {s : PyStr} (hurl : urlLike s = false)
    (hext : normExt s ∉ supportedExts) :
    from_file s = .error ("Unsupported file type: ".toList ++ normExt s) := by
  simp [from_file, hurl, extFromString_eq_none hext]

/-- C5: a source that is not URL-like and whose normalised extension is not a
supported document type makes `DocumentProcessor` construction raise — the
`doc_types` table is built eagerly at `__init__`, before `process` and before
any extraction I/O, and the error aborts construction for the whole batch. -/
theorem unsupported_format_fail_fast (sources : List PyStr) (s : PyStr)
    (hs : s ∈ sources) (hurl : urlLike s = false)
    (hext : normExt s ∉ supportedExts) :
    ∃ e, initDocTypes sources = .error e := by
  induction sources with
  | nil => cases hs
  | cons t rest ih =>
    rcases List.mem_cons.mp hs with rfl | hmem
    · exact ⟨"Unsupported file type: ".toList ++ normExt s,
        by simp [initDocTypes, from_file_unsupported hurl hext]⟩
    · cases hff : from_file t with
      | error e => exact ⟨e, by simp [initDocTypes, hff]⟩
      | ok dt =>
        rcases ih hmem with ⟨e, he⟩
        exact ⟨e, by simp [initDocTypes, hff, he]⟩

/-- Witness for C5: registering the single source "doc.zzz" (extension "zzz",
no registered strategy) makes construction fail. -/
theorem unsupported_format_fail_fast_witness :
    ∃ e, initDocTypes ["doc.zzz".toList] = .error e :=
  unsupported_format_fail_fast ["doc.zzz".toList] "doc.zzz".toList
    (by decide) (by decide) (by decide)

/-! ### Prefix/suffix facts used by the dispatch claims -/

theorem py_startswith_lower {s pre : PyStr} (hfix : pre.map Char.toLower = pre)
    (h : py_startswith s pre = true) : py_startswith (pyLower s) pre = true := by
  unfold py_startswith at *
  have h' : s.take pre.length = pre := by simpa using h
  simp [pyLower, ← List.map_take, h', hfix]

theorem py_endswith_take4 {l suf : List Char} (h4 : 4 ≤ suf.length)
    (h : py_endswith l suf = true) :
    l.reverse.take 4 = suf.reverse.take 4 := by
  unfold py_endswith at h
  have h' : l.reverse.take suf.length = suf.reverse := by simpa using h
  have h2 : (l.reverse.take suf.length).take 4 = suf.reverse.take 4 := by rw [h']
  rwa [List.take_take, Nat.min_eq_left h4] at h2

theorem not_endswith_of_take4 {l : List Char} (suf : List Char)
    (h4 : 4 ≤ suf.length) (hl : l.reverse.take 4 = ['f', 'd', 'p', '.'])
    (hsuf : suf.reverse.take 4 ≠ ['f', 'd', 'p', '.']) :
    py_endswith l suf = false := by
  cases hE : py_endswith l suf with
  | false => rfl
  | true => exact absurd ((py_endswith_take4 h4 hE).symm.trans hl) hsuf

theorem isImageExt_false_of_pdf {l : List Char}
    (hpdf : py_endswith l ".pdf".toList = true) : isImageExt l = false := by
  have hl : l.reverse.take 4 = ['f', 'd', 'p', '.'] := by
    have := py_endswith_take4 (by decide) hpdf
    simpa using this
  unfold isImageExt
  rw [not_endswith_of_take4 ".png".toList (by decide) hl (by decide),
    not_endswith_of_take4 ".jpg".toList (by decide) hl (by decide),
    not_endswith_of_take4 ".jpeg".toList (by decide) hl (by decide),
    not_endswith_of_take4 ".tiff".toList (by decide) hl (by decide),
    not_endswith_of_take4 ".bmp".toList (by decide) hl (by decide),
    not_endswith_of_take4 ".heic".toList (by decide) hl (by decide)]
  rfl

/-! ### Structure of the emitted documents -/

theorem pageDocs_fields (cfg : ProcessingConfig) (source : PyStr) (idx : Nat)
    (content : PyStr) (ds : List Document)
    (h : pageDocs cfg source idx content = .ok ds) :
    ∀ d ∈ ds, d.metadata.page_number = idx ∧
      d.metadata.filetype = get_filetype source ∧
      d.metadata.filename = pathName source ∧
      d.metadata.source = source ∧
      (d.metadata.chunk_number = none → d.page_content = content) := by
  unfold pageDocs at h
  by_cases hc : should_chunk_content content cfg.chunk_size
  · rw [if_pos hc] at h
    cases hcc : chunk_content cfg content cfg.chunk_size with
    | error e => rw [hcc] at h; cases h
    | ok chunks =>
      rw [hcc] at h
      cases h
      intro d hd
      rcases List.mem_map.mp hd with ⟨p, _, rfl⟩
      simp
  · rw [if_neg hc] at h
    cases h
    intro d hd
    rcases List.mem_singleton.mp hd with rfl
    simp

theorem pagesToDocs_fields (cfg : ProcessingConfig) (source : PyStr) :
    ∀ (pairs : List (Nat × PyStr)) (docs : List Document),
      pagesToDocs cfg source pairs = .ok docs →
      ∀ d ∈ docs, ∃ p ∈ pairs, d.metadata.page_number = p.1 ∧
        d.metadata.filetype = get_filetype source ∧
        d.metadata.filename = pathName source ∧
        d.metadata.source = source ∧
        (d.metadata.chunk_number = none → d.page_content = p.2) := by
  intro pairs
  induction pairs with
  | nil =>
    intro docs h d hd
    unfold pagesToDocs at h
    cases h
    cases hd
  | cons p rest ih =>
    intro docs h d hd
    unfold pagesToDocs at h
    cases h1 : pageDocs cfg source p.1 p.2 with
    | error e => rw [h1] at h; cases h
    | ok ds =>
      rw [h1] at h
      cases h2 : pagesToDocs cfg source rest with
      | error e => rw [h2] at h; cases h
      | ok rs =>
        rw [h2] at h
        cases h
        rcases List.mem_append.mp hd with hd | hd
        · exact ⟨p, by simp, pageDocs_fields cfg source p.1 p.2 ds h1 d hd⟩
        · rcases ih rs h2 d hd with ⟨q, hq, hrest⟩
          exact ⟨q, by simp [hq], hrest⟩

theorem enumFrom_mem {l : List α} :
    ∀ {i : Nat} {p : Nat × α}, p ∈ enumFrom i l →
      ∃ j, j < l.length ∧ p.1 = i + j ∧ l.get? j = some p.2 := by
  induction l with
  | nil => intro i p hp; cases hp
  | cons x xs ih =>
    intro i p hp
    rcases List.mem_cons.mp hp with rfl | hp
    · exact ⟨0, by simp, by simp, by simp⟩
    · rcases ih hp with ⟨j, hj, hji, hget⟩
      exact ⟨j + 1, by simpa using hj, by omega, by simpa using hget⟩

/-- C10: a source beginning with "http://" or "https://" whose path ends in
".pdf" is accepted at construction as `HTML`, every output unit built for it
carries filetype "text/html", and yet `_get_elements` dispatches it to the PDF
strategy (the `.pdf` suffix check precedes the URL check), not the web
strategy. -/
theorem http_pdf_dispatch_quirk (A : Adapters) (cfg : ProcessingConfig) (s : PyStr)
    (hhttp : py_startswith s "http://".toList = true ∨
      py_startswith s "https://".toList = true)
    (hpdf : py_endswith (pyLower s) ".pdf".toList = true) :
    from_file s = .ok DocumentType.HTML ∧
    get_filetype s = "text/html".toList ∧
    (∀ els docs, process_elements_to_document cfg els s = .ok docs →
      ∀ d ∈ docs, d.metadata.filetype = "text/html".toList) ∧
    get_elements_raw A cfg s = A.partition_pdf s
      (if cfg.hi_res_pdf then "hi_res".toList else "fast".toList) cfg.infer_tables := by
  have hurl : urlLike s = true := by
    unfold urlLike
    rcases hhttp with h | h
    · rw [py_startswith_lower (by decide) h]
      simp
    · rw [py_startswith_lower (by decide) h]
      simp
  have hff : from_file s = .ok DocumentType.HTML := by simp [from_file, hurl]
  have hft : get_filetype s = "text/html".toList := by
    simp [get_filetype, hff, mimeOf]
  refine ⟨hff, hft, ?_, ?_⟩
  · intro els docs h d hd
    rcases pagesToDocs_fields cfg s (enumFrom 1 (combine_elements_by_page els))
        docs h d hd with ⟨p, hp, hpage, hftd, hrest⟩
    rw [hftd, hft]
  · have hpdf' : py_endswith (pyLower s) ['.', 'p', 'd', 'f'] = true := by
      simpa using hpdf
    simp only [get_elements_raw]
    rw [isImageExt_false_of_pdf hpdf]
    simp [hpdf']

/-- Witness for C10 at source "http://ex.com/a.pdf" with the failing fixture
adapters. -/
theorem http_pdf_dispatch_quirk_witness :
    from_file "http://ex.com/a.pdf".toList = .ok DocumentType.HTML ∧
    get_filetype "http://ex.com/a.pdf".toList = "text/html".toList ∧
    (∀ els docs,
      process_elements_to_document {} els "http://ex.com/a.pdf".toList = .ok docs →
      ∀ d ∈ docs, d.metadata.filetype = "text/html".toList) ∧
    get_elements_raw failAdapters {} "http://ex.com/a.pdf".toList =
      failAdapters.partition_pdf "http://ex.com/a.pdf".toList "hi_res".toList false :=
  http_pdf_dispatch_quirk failAdapters {} "http://ex.com/a.pdf".toList
    (Or.inl (by decide)) (by decide)

/-- C6 (amended): an image-extension source processed with OCR enabled yields
exactly one synthetic element with page number 1, category "text", and
metadata recording the file name, containing directory, derived file type, a
verbatim (unescaped) copy of the OCR text under the HTML-text key, and the
capture timestamp. -/
theorem ocr_element_shape (A : Adapters) (cfg : ProcessingConfig) (s : PyStr)
    (himg : isImageExt (pyLower s) = true) (hocr : cfg.ocr_for_images = true)
    (text : PyStr) (hok : A.ocr_extract s = .ok text) :
    get_elements_raw A cfg s = .ok
      [{ text := some text
         category := some "text".toList
         id := 0
         metadata := { page_number := some 1
                       parent_id := none
                       text_as_html := some text
                       filename := some (pathName s)
                       file_directory := some (pathParent s)
                       filetype := some (get_filetype s)
                       last_modified := some A.ocr_now } }] := by
  simp [get_elements_raw, himg, hocr, hok, create_element_from_ocr]

/-- Witness for the amended C6: the OCR fixture adapters on "d/img.png". -/
theorem ocr_element_shape_witness :
    get_elements_raw ocrAdapters { ocr_for_images := true } "d/img.png".toList = .ok
      [{ text := some "a<b".toList
         category := some "text".toList
         id := 0
         metadata := { page_number := some 1
                       parent_id := none
                       text_as_html := some "a<b".toList
                       filename := some (pathName "d/img.png".toList)
                       file_directory := some (pathParent "d/img.png".toList)
                       filetype := some (get_filetype "d/img.png".toList)
                       last_modified := some ocrAdapters.ocr_now } }] :=
  ocr_element_shape ocrAdapters { ocr_for_images := true } "d/img.png".toList
    (by decide) rfl "a<b".toList rfl

/-- Counterexample to C6 as stated: with OCR text "a<b", the metadata's
HTML-text entry stores the raw text "a<b" verbatim, which differs from its
HTML-escaped form "a&lt;b" — the code never escapes. -/
theorem ocr_text_not_escaped :
    ((get_elements_raw ocrAdapters { ocr_for_images := true } "img.png".toList).map
      (fun els => els.map (fun el => el.metadata.text_as_html)))
        = .ok [some "a<b".toList] ∧
    htmlEscape "a<b".toList = "a&lt;b".toList ∧
    some "a<b".toList ≠ some (htmlEscape "a<b".toList) :=
  ⟨rfl, rfl, by decide⟩

/-! ### Unfolding `groupbyList` as run-splitting -/

theorem groupbyAux_eq (key : α → Nat) (k : Nat) (acc xs : List α) :
    groupbyAux key k acc xs =
      (k, acc.reverse ++ xs.takeWhile (fun y => key y == k)) ::
        groupbyList key (xs.dropWhile (fun y => key y == k)) := by
  induction xs generalizing k acc with
  | nil => simp [groupbyAux, groupbyList]
  | cons x xs ih =>
    by_cases h : key x == k
    · simp [groupbyAux, h, ih, List.takeWhile_cons, List.dropWhile_cons]
    · simp [groupbyAux, h, groupbyList, List.takeWhile_cons, List.dropWhile_cons]

theorem groupbyList_cons (key : α → Nat) (x : α) (xs : List α) :
    groupbyList key (x :: xs) =
      (key x, x :: xs.takeWhile (fun y => key y == key x)) ::
        groupbyList key (xs.dropWhile (fun y => key y == key x)) := by
  rw [groupbyList, groupbyAux_eq]
  simp

/-! ### The reference filter (C7) -/

theorem filter_head_eq_find (p : α → Bool) (l : List α) :
    (l.filter p).head? = l.find? p := by
  induction l with
  | nil => rfl
  | cons x xs ih =>
    by_cases h : p x <;> simp [List.filter_cons, h, ih]

theorem refStep_found {pre : List Element} {t : Element}
    (hfind : pre.find? isRefTitle = some t)
    (htext : ∀ el ∈ pre, el.text ≠ none) :
    refStep pre = pre.filter (fun el => el.metadata.parent_id != some t.id) := by
  have hany : pre.any (fun el => el.text.isNone) = false := by
    rw [List.any_eq_false]
    intro el hel
    simp only [Option.isNone_iff_eq_none]
    exact htext el hel
  have hhead : (pre.filter isRefTitle).head? = some t := by
    rw [filter_head_eq_find]; exact hfind
  unfold refStep
  rw [hany]
  cases hfil : pre.filter isRefTitle with
  | nil => rw [hfil] at hhead; cases hhead
  | cons u rest =>
    rw [hfil] at hhead
    simp only [List.head?_cons, Option.some.injEq] at hhead
    subst hhead
    simp

theorem refStep_noop {pre : List Element}
    (h : (∃ el ∈ pre, el.text = none) ∨ pre.find? isRefTitle = none) :
    refStep pre = pre := by
  unfold refStep
  rcases h with ⟨el, hel, hnone⟩ | hfind
  · have hany : pre.any (fun el => el.text.isNone) = true :=
      List.any_eq_true.mpr ⟨el, hel, by simp [hnone]⟩
    simp [hany]
  · by_cases hany : pre.any (fun el => el.text.isNone) = true
    · simp [hany]
    · rw [Bool.not_eq_true] at hany
      have hfil : pre.filter isRefTitle = [] := by
        rw [List.filter_eq_nil_iff]
        intro a ha
        have := List.find?_eq_none.mp hfind a ha
        simpa using this
      simp [hany, hfil]

/-- C7: with reference removal enabled, the filter drops exactly the elements
whose parent-identity equals the id of the first surviving element whose
stripped lowercased text is "references" and whose category is "Title"; when
no such title survives, or when the lookup would raise (an element without a
`text` attribute), the step leaves the surviving sequence unchanged and the
error never propagates (the step is total). -/
theorem reference_filter_behavior (cfg : ProcessingConfig) (els : List Element)
    (hrr : cfg.remove_references = true) :
    (∀ t, (headerStep cfg (emptyStep cfg els)).find? isRefTitle = some t →
      (∀ el ∈ headerStep cfg (emptyStep cfg els), el.text ≠ none) →
      filter_elements cfg els =
        (headerStep cfg (emptyStep cfg els)).filter
          (fun el => el.metadata.parent_id != some t.id)) ∧
    (((∃ el ∈ headerStep cfg (emptyStep cfg els), el.text = none) ∨
        (headerStep cfg (emptyStep cfg els)).find? isRefTitle = none) →
      filter_elements cfg els = headerStep cfg (emptyStep cfg els)) := by
  constructor
  · intro t hfind htext
    by_cases hels : els.isEmpty
    · have he : els = [] := List.isEmpty_iff.mp hels
      subst he
      simp [emptyStep, headerStep] at hfind
    · have heq : filter_elements cfg els =
          refStep (headerStep cfg (emptyStep cfg els)) := by
        simp [filter_elements, hels, refStepIf, hrr]
      rw [heq, refStep_found hfind htext]
  · intro h
    by_cases hels : els.isEmpty
    · have he : els = [] := List.isEmpty_iff.mp hels
      subst he
      have hpre : headerStep cfg (emptyStep cfg ([] : List Element)) = [] := by
        simp [emptyStep, headerStep]
      rw [hpre]
      rfl
    · have heq : filter_elements cfg els =
          refStep (headerStep cfg (emptyStep cfg els)) := by
        simp [filter_elements, hels, refStepIf, hrr]
      rw [heq, refStep_noop h]

/-- Witness for C7: on a title "References", one direct child and one body
element, the filter drops exactly the child. -/
theorem reference_filter_behavior_witness :
    filter_elements { remove_references := true } [refTitleEl, refChildEl, bodyEl] =
      (headerStep { remove_references := true }
        (emptyStep { remove_references := true } [refTitleEl, refChildEl, bodyEl])).filter
        (fun el => el.metadata.parent_id != some refTitleEl.id) :=
  (reference_filter_behavior { remove_references := true }
    [refTitleEl, refChildEl, bodyEl] rfl).1 refTitleEl (by decide) (by decide)

/-! ### Dict lemmas and the orchestrator (C1, C2, C8) -/

theorem dictGet_cons (kv : PyStr × β) (m : List (PyStr × β)) (k : PyStr) :
    dictGet (kv :: m) k = if kv.1 == k then some kv.2 else dictGet m k := by
  by_cases h : kv.1 == k <;> simp [dictGet, List.find?_cons, h]

theorem dictGet_insert_self (m : List (PyStr × β)) (k : PyStr) (v : β) :
    dictGet (dictInsert m k v) k = some v := by
  induction m with
  | nil => simp [dictInsert, dictGet]
  | cons kv rest ih =>
    by_cases h : kv.1 == k
    · simp [dictInsert, h, dictGet_cons]
    · simp [dictInsert, h, dictGet_cons, ih]

theorem dictGet_insert_ne (m : List (PyStr × β)) (k k' : PyStr) (v : β)
    (h : k ≠ k') : dictGet (dictInsert m k v) k' = dictGet m k' := by
  induction m with
  | nil => simp [dictInsert, dictGet_cons, dictGet, h]
  | cons kv rest ih =>
    by_cases hk : kv.1 == k
    · have hkv : kv.1 = k := by simpa using hk
      have hkk : (k == k') = false := by simp [h]
      rw [dictInsert, if_pos hk, dictGet_cons, dictGet_cons, hkv]
      simp [hkk]
    · rw [dictInsert, if_neg hk, dictGet_cons, dictGet_cons, ih]

theorem mem_keys_insert (m : List (PyStr × β)) (k : PyStr) (v : β) (k' : PyStr) :
    k' ∈ (dictInsert m k v).map Prod.fst ↔ k' ∈ m.map Prod.fst ∨ k' = k := by
  induction m with
  | nil => simp [dictInsert]
  | cons kv rest ih =>
    by_cases h : kv.1 == k
    · have hkv : kv.1 = k := by simpa using h
      rw [show dictInsert (kv :: rest) k v = (k, v) :: rest from by
        rw [dictInsert, if_pos h]]
      simp only [List.map_cons, List.mem_cons, hkv]
      tauto
    · rw [show dictInsert (kv :: rest) k v = kv :: dictInsert rest k v from by
        rw [dictInsert, if_neg h]]
      simp only [List.map_cons, List.mem_cons, ih]
      tauto

theorem nodup_keys_insert (m : List (PyStr × β)) (k : PyStr) (v : β)
    (h : (m.map Prod.fst).Nodup) : ((dictInsert m k v).map Prod.fst).Nodup := by
  induction m with
  | nil => simp [dictInsert]
  | cons kv rest ih =>
    rw [List.map_cons, List.nodup_cons] at h
    by_cases hk : kv.1 == k
    · simp only [dictInsert, if_pos hk, List.map_cons, List.nodup_cons]
      have hkv : kv.1 = k := by simpa using hk
      exact ⟨hkv ▸ h.1, h.2⟩
    · simp only [dictInsert, if_neg hk, List.map_cons, List.nodup_cons]
      refine ⟨?_, ih h.2⟩
      intro hmem
      rcases (mem_keys_insert rest k v kv.1).mp hmem with hmem | heq
      · exact h.1 hmem
      · exact hk (by simp [heq])

theorem processFold_get_notin (A : Adapters) (cfg : ProcessingConfig) (k : PyStr) :
    ∀ (L : List PyStr) (m₀ : List (PyStr × List Document)),
      (∀ s ∈ L, pathName s ≠ k) →
      dictGet (L.foldl (fun m s => dictInsert m (pathName s) (sourceResult A cfg s)) m₀) k
        = dictGet m₀ k := by
  intro L
  induction L with
  | nil => intro m₀ _; rfl
  | cons s rest ih =>
    intro m₀ h
    simp only [List.foldl_cons]
    rw [ih _ (fun t ht => h t (by simp [ht]))]
    exact dictGet_insert_ne _ _ _ _ (h s (by simp))

theorem processFold_get_found (A : Adapters) (cfg : ProcessingConfig)
    (k : PyStr) (v : List Document) :
    ∀ (L : List PyStr) (m₀ : List (PyStr × List Document)),
      (∀ s ∈ L, pathName s = k → sourceResult A cfg s = v) →
      (∃ s ∈ L, pathName s = k) →
      dictGet (L.foldl (fun m s => dictInsert m (pathName s) (sourceResult A cfg s)) m₀) k
        = some v := by
  intro L
  induction L with
  | nil =>
    rintro m₀ _ ⟨s, hs, _⟩
    cases hs
  | cons s rest ih =>
    intro m₀ hv hex
    simp only [List.foldl_cons]
    by_cases hrest : ∃ t ∈ rest, pathName t = k
    · exact ih _ (fun t ht => hv t (by simp [ht])) hrest
    · rcases hex with ⟨t, ht, htk⟩
      rcases List.mem_cons.mp ht with rfl | htmem
      · rw [processFold_get_notin A cfg k rest _
          (fun u hu hku => hrest ⟨u, hu, hku⟩), htk, dictGet_insert_self,
          hv t (by simp) htk]
      · exact absurd ⟨t, htmem, htk⟩ hrest

theorem processFold_mem_keys (A : Adapters) (cfg : ProcessingConfig) (k : PyStr) :
    ∀ (L : List PyStr) (m₀ : List (PyStr × List Document)),
      k ∈ ((L.foldl (fun m s => dictInsert m (pathName s) (sourceResult A cfg s)) m₀).map
        Prod.fst) ↔ k ∈ m₀.map Prod.fst ∨ ∃ s ∈ L, pathName s = k := by
  intro L
  induction L with
  | nil => intro m₀; simp
  | cons s rest ih =>
    intro m₀
    simp only [List.foldl_cons]
    rw [ih]
    rw [mem_keys_insert]
    constructor
    · rintro ((h | h) | ⟨t, ht, htk⟩)
      · exact Or.inl h
      · exact Or.inr ⟨s, by simp, h.symm⟩
      · exact Or.inr ⟨t, by simp [ht], htk⟩
    · rintro (h | ⟨t, ht, htk⟩)
      · exact Or.inl (Or.inl h)
      · rcases List.mem_cons.mp ht with rfl | htmem
        · exact Or.inl (Or.inr htk.symm)
        · exact Or.inr ⟨t, htmem, htk⟩

theorem processFold_nodup (A : Adapters) (cfg : ProcessingConfig) :
    ∀ (L : List PyStr) (m₀ : List (PyStr × List Document)),
      (m₀.map Prod.fst).Nodup →
      ((L.foldl (fun m s => dictInsert m (pathName s) (sourceResult A cfg s)) m₀).map
        Prod.fst).Nodup := by
  intro L
  induction L with
  | nil => intro m₀ h; exact h
  | cons s rest ih =>
    intro m₀ h
    simp only [List.foldl_cons]
    exact ih _ (nodup_keys_insert m₀ _ _ h)

theorem processRun_get_found (A : Adapters) (cfg : ProcessingConfig)
    (k : PyStr) (v : List Document) (L : List PyStr)
    (hv : ∀ s ∈ L, pathName s = k → sourceResult A cfg s = v)
    (hex : ∃ s ∈ L, pathName s = k) :
    dictGet (processRun A cfg L) k = some v :=
  processFold_get_found A cfg k v L [] hv hex

theorem processRun_get_none (A : Adapters) (cfg : ProcessingConfig)
    (k : PyStr) (L : List PyStr) (h : ∀ s ∈ L, pathName s ≠ k) :
    dictGet (processRun A cfg L) k = none :=
  processFold_get_notin A cfg k L [] h

theorem sourceResult_empty_of_failure (A : Adapters) (cfg : ProcessingConfig)
    (s : PyStr)
    (h : (get_elements_raw A cfg s).isOk = false ∨ (pipelineE A cfg s).isOk = false) :
    sourceResult A cfg s = [] := by
  rcases h with h | h
  · have hge : get_elements A cfg s = [] := by
      unfold get_elements
      cases hr : get_elements_raw A cfg s with
      | ok els => rw [hr] at h; simp [Except.isOk, Except.toBool] at h
      | error e => rfl
    unfold sourceResult pipelineE
    rw [hge]
    rfl
  · unfold sourceResult
    cases hp : pipelineE A cfg s with
    | ok docs => rw [hp] at h; simp [Except.isOk, Except.toBool] at h
    | error e => rfl

/-- C1 (amended): for every completion order, the mapping returned by
`process` has pairwise-distinct keys and its key set is exactly the set of
`Path(source).name` basenames of the input sources — one entry per distinct
basename, regardless of per-source failure. -/
theorem process_key_set (A : Adapters) (cfg : ProcessingConfig)
    (sources order : List PyStr) (hperm : order.Perm sources) :
    ((processRun A cfg order).map Prod.fst).Nodup ∧
    ∀ k, k ∈ (processRun A cfg order).map Prod.fst ↔ k ∈ sources.map pathName := by
  constructor
  · exact processFold_nodup A cfg order [] (by simp)
  · intro k
    rw [processRun, processFold_mem_keys]
    simp only [List.map_nil, List.not_mem_nil, false_or]
    constructor
    · rintro ⟨s, hs, rfl⟩
      exact List.mem_map_of_mem pathName (hperm.mem_iff.mp hs)
    · intro h
      rcases List.mem_map.mp h with ⟨s, hs, rfl⟩
      exact ⟨s, hperm.mem_iff.mpr hs, rfl⟩

/-- Witness for the amended C1: one failing source "a/x.txt". -/
theorem process_key_set_witness :
    ((processRun failAdapters {} ["a/x.txt".toList]).map Prod.fst).Nodup ∧
    ∀ k, k ∈ (processRun failAdapters {} ["a/x.txt".toList]).map Prod.fst ↔
      k ∈ ["a/x.txt".toList].map pathName :=
  process_key_set failAdapters {} ["a/x.txt".toList] ["a/x.txt".toList]
    (List.Perm.refl _)

/-- Counterexample to C1 as stated: for the source "a/x.txt" the mapping's
key is the basename "x.txt", so the key set is not the set of input source
identifiers. -/
theorem process_keys_are_basenames :
    (processRun failAdapters {} ["a/x.txt".toList]).map Prod.fst = ["x.txt".toList] ∧
    "a/x.txt".toList ∉ (processRun failAdapters {} ["a/x.txt".toList]).map Prod.fst :=
  ⟨by decide, by decide⟩

/-- C2 (amended): provided the sources carry pairwise-distinct basenames, a
source whose pipeline fails (a raising extraction adapter, or a raising stage
after extraction such as a custom splitter) is mapped to the empty list under
its name, and every other source's entry is exactly what it would be if the
failing source were absent.  `processRun` is total, so a per-source run-time
failure never raises out of the overall call. -/
theorem failed_source_isolated (A : Adapters) (cfg : ProcessingConfig)
    (sources : List PyStr) (s : PyStr)
    (hinj : ∀ s1 ∈ sources, ∀ s2 ∈ sources, pathName s1 = pathName s2 → s1 = s2)
    (hs : s ∈ sources)
    (hfail : (get_elements_raw A cfg s).isOk = false ∨ (pipelineE A cfg s).isOk = false) :
    dictGet (processRun A cfg sources) (pathName s) = some [] ∧
    ∀ s' ∈ sources, s' ≠ s →
      dictGet (processRun A cfg sources) (pathName s') =
        dictGet (processRun A cfg (sources.erase s)) (pathName s') := by
  constructor
  · refine processRun_get_found A cfg (pathName s) [] sources ?_ ⟨s, hs, rfl⟩
    intro t ht htk
    rw [hinj t ht s hs htk]
    exact sourceResult_empty_of_failure A cfg s hfail
  · intro s' hs' hne
    have hv : ∀ t ∈ sources, pathName t = pathName s' →
        sourceResult A cfg t = sourceResult A cfg s' := by
      intro t ht htk
      rw [hinj t ht s' hs' htk]
    have hv' : ∀ t ∈ sources.erase s, pathName t = pathName s' →
        sourceResult A cfg t = sourceResult A cfg s' := by
      intro t ht htk
      exact hv t (List.mem_of_mem_erase ht) htk
    rw [processRun_get_found A cfg (pathName s') (sourceResult A cfg s') sources
      hv ⟨s', hs', rfl⟩]
    rw [processRun_get_found A cfg (pathName s') (sourceResult A cfg s')
      (sources.erase s) hv' ⟨s', (List.mem_erase_of_ne hne).mpr hs', rfl⟩]

/-- Witness for the amended C2: sources "ok/x.txt" and "bad/y.txt" where the
second one's adapter raises. -/
theorem failed_source_isolated_witness :
    dictGet (processRun demoAdapters {} ["ok/x.txt".toList, "bad/y.txt".toList])
      (pathName "bad/y.txt".toList) = some [] ∧
    ∀ s' ∈ ["ok/x.txt".toList, "bad/y.txt".toList], s' ≠ "bad/y.txt".toList →
      dictGet (processRun demoAdapters {} ["ok/x.txt".toList, "bad/y.txt".toList])
          (pathName s') =
        dictGet (processRun demoAdapters {}
          (["ok/x.txt".toList, "bad/y.txt".toList].erase "bad/y.txt".toList))
          (pathName s') :=
  failed_source_isolated demoAdapters {} ["ok/x.txt".toList, "bad/y.txt".toList]
    "bad/y.txt".toList (by decide) (by decide) (Or.inl (by decide))

/-- Counterexample to C2 as stated: with colliding basenames
("ok/x.txt", "bad/x.txt"), the failing source's empty result overwrites the
healthy sibling's entry, so the sibling's entry is not what it would be if the
failing source were absent. -/
theorem failed_source_collision :
    dictGet (processRun demoAdapters {} ["ok/x.txt".toList, "bad/x.txt".toList])
      "x.txt".toList = some [] ∧
    dictGet (processRun demoAdapters {} ["ok/x.txt".toList]) "x.txt".toList =
      some [{ page_content := "hello".toList,
              metadata := { filename := "x.txt".toList,
                            filetype := "text/plain".toList,
                            page_number := 1, chunk_number := none,
                            source := "ok/x.txt".toList } }] ∧
    some ([] : List Document) ≠
      some [{ page_content := "hello".toList,
              metadata := { filename := "x.txt".toList,
                            filetype := "text/plain".toList,
                            page_number := 1, chunk_number := none,
                            source := "ok/x.txt".toList } }] :=
  ⟨by decide, by decide, by decide⟩

/-- C8 (amended): with deterministic adapters and pairwise-distinct source
basenames, any two completion orders of the worker pool produce mappings with
the same key set and, for each key, the identical ordered document list. -/
theorem process_idempotent (A : Adapters) (cfg : ProcessingConfig)
    (sources order1 order2 : List PyStr)
    (hinj : ∀ s1 ∈ sources, ∀ s2 ∈ sources, pathName s1 = pathName s2 → s1 = s2)
    (h1 : order1.Perm sources) (h2 : order2.Perm sources) :
    (∀ k, k ∈ (processRun A cfg order1).map Prod.fst ↔
      k ∈ (processRun A cfg order2).map Prod.fst) ∧
    ∀ k, dictGet (processRun A cfg order1) k = dictGet (processRun A cfg order2) k := by
  constructor
  · intro k
    rw [processRun, processRun, processFold_mem_keys, processFold_mem_keys]
    simp only [List.map_nil, List.not_mem_nil, false_or]
    constructor
    · rintro ⟨s, hs, rfl⟩
      exact ⟨s, h2.mem_iff.mpr (h1.mem_iff.mp hs), rfl⟩
    · rintro ⟨s, hs, rfl⟩
      exact ⟨s, h1.mem_iff.mpr (h2.mem_iff.mp hs), rfl⟩
  · intro k
    by_cases hex : ∃ s ∈ sources, pathName s = k
    · rcases hex with ⟨s, hs, rfl⟩
      have hv1 : ∀ t ∈ order1, pathName t = pathName s →
          sourceResult A cfg t = sourceResult A cfg s := by
        intro t ht htk
        rw [hinj t (h1.mem_iff.mp ht) s hs htk]
      have hv2 : ∀ t ∈ order2, pathName t = pathName s →
          sourceResult A cfg t = sourceResult A cfg s := by
        intro t ht htk
        rw [hinj t (h2.mem_iff.mp ht) s hs htk]
      rw [processRun_get_found A cfg (pathName s) (sourceResult A cfg s) order1
        hv1 ⟨s, h1.mem_iff.mpr hs, rfl⟩]
      rw [processRun_get_found A cfg (pathName s) (sourceResult A cfg s) order2
        hv2 ⟨s, h2.mem_iff.mpr hs, rfl⟩]
    · rw [processRun_get_none A cfg k order1
        (fun t ht htk => hex ⟨t, h1.mem_iff.mp ht, htk⟩)]
      rw [processRun_get_none A cfg k order2
        (fun t ht htk => hex ⟨t, h2.mem_iff.mp ht, htk⟩)]

/-- Witness for the amended C8: the two completion orders of
["ok/x.txt", "bad/y.txt"]. -/
theorem process_idempotent_witness :
    (∀ k, k ∈ (processRun demoAdapters {}
        ["ok/x.txt".toList, "bad/y.txt".toList]).map Prod.fst ↔
      k ∈ (processRun demoAdapters {}
        ["bad/y.txt".toList, "ok/x.txt".toList]).map Prod.fst) ∧
    ∀ k, dictGet (processRun demoAdapters {}
        ["ok/x.txt".toList, "bad/y.txt".toList]) k =
      dictGet (processRun demoAdapters {}
        ["bad/y.txt".toList, "ok/x.txt".toList]) k :=
  process_idempotent demoAdapters {} ["ok/x.txt".toList, "bad/y.txt".toList]
    ["ok/x.txt".toList, "bad/y.txt".toList] ["bad/y.txt".toList, "ok/x.txt".toList]
    (by decide) (List.Perm.refl _) (by decide)

/-- Counterexample to C8 as stated: with colliding basenames the two
completion orders of the same source list disagree at key "x.txt". -/
theorem process_order_dependent :
    dictGet (processRun demoAdapters {} ["ok/x.txt".toList, "bad/x.txt".toList])
        "x.txt".toList ≠
      dictGet (processRun demoAdapters {} ["bad/x.txt".toList, "ok/x.txt".toList])
        "x.txt".toList := by decide

/-! ### Stable sorting (C4) -/

theorem insertByKey_perm (key : α → Nat) (x : α) (l : List α) :
    (insertByKey key x l).Perm (x :: l) := by
  induction l with
  | nil => exact List.Perm.refl _
  | cons y ys ih =>
    by_cases hxy : key x ≤ key y
    · rw [insertByKey, if_pos hxy]
    · rw [insertByKey, if_neg hxy]
      exact (ih.cons y).trans (List.Perm.swap x y ys)

theorem sortByKey_perm (key : α → Nat) (l : List α) :
    (sortByKey key l).Perm l := by
  induction l with
  | nil => exact List.Perm.refl _
  | cons x xs ih =>
    rw [sortByKey]
    exact (insertByKey_perm key x (sortByKey key xs)).trans (ih.cons x)

theorem insertByKey_pairwise (key : α → Nat) (x : α) (l : List α)
    (h : l.Pairwise (fun a b => key a ≤ key b)) :
    (insertByKey key x l).Pairwise (fun a b => key a ≤ key b) := by
  induction l with
  | nil => simp [insertByKey]
  | cons y ys ih =>
    rw [List.pairwise_cons] at h
    by_cases hxy : key x ≤ key y
    · rw [insertByKey, if_pos hxy, List.pairwise_cons]
      refine ⟨?_, List.pairwise_cons.mpr h⟩
      intro z hz
      rcases List.mem_cons.mp hz with rfl | hz
      · exact hxy
      · exact le_trans hxy (h.1 z hz)
    · rw [insertByKey, if_neg hxy, List.pairwise_cons]
      refine ⟨?_, ih h.2⟩
      intro z hz
      rcases List.mem_cons.mp ((insertByKey_perm key x ys).mem_iff.mp hz) with rfl | hz
      · exact Nat.le_of_not_le hxy
      · exact h.1 z hz

theorem sortByKey_pairwise (key : α → Nat) (l : List α) :
    (sortByKey key l).Pairwise (fun a b => key a ≤ key b) := by
  induction l with
  | nil => simp [sortByKey]
  | cons x xs ih =>
    rw [sortByKey]
    exact insertByKey_pairwise key x _ ih

theorem insertByKey_filter_fiber (key : α → Nat) (n : Nat) (x : α) (l : List α)
    (hsorted : l.Pairwise (fun a b => key a ≤ key b)) :
    (insertByKey key x l).filter (fun a => key a == n) =
      if key x == n then x :: l.filter (fun a => key a == n)
      else l.filter (fun a => key a == n) := by
  induction l with
  | nil => by_cases h : key x == n <;> simp [insertByKey, h]
  | cons y ys ih =>
    rw [List.pairwise_cons] at hsorted
    by_cases hxy : key x ≤ key y
    · rw [insertByKey, if_pos hxy]
      by_cases hx : key x == n
      · rw [List.filter_cons, if_pos hx]
      · rw [List.filter_cons, if_neg hx]
    · rw [insertByKey, if_neg hxy]
      have hyx : key y < key x := Nat.lt_of_not_le hxy
      by_cases hy : key y == n
      · have hyn : key y = n := by simpa using hy
        have hx : (key x == n) = false := by
          simp only [beq_eq_false_iff_ne, ne_eq]
          omega
        rw [List.filter_cons, if_pos hy, ih hsorted.2, if_neg (by simp [hx]),
          if_neg (by simp [hx]), List.filter_cons, if_pos hy]
      · rw [List.filter_cons, if_neg hy, ih hsorted.2]
        by_cases hx : key x == n
        · rw [if_pos hx, if_pos hx, List.filter_cons, if_neg hy]
        · rw [if_neg hx, if_neg hx, List.filter_cons, if_neg hy]

theorem sortByKey_filter_fiber (key : α → Nat) (n : Nat) (l : List α) :
    (sortByKey key l).filter (fun a => key a == n) =
      l.filter (fun a => key a == n) := by
  induction l with
  | nil => rfl
  | cons x xs ih =>
    rw [sortByKey, insertByKey_filter_fiber key n x _ (sortByKey_pairwise key xs)]
    by_cases h : key x == n
    · rw [if_pos h, ih, List.filter_cons, if_pos h]
    · rw [if_neg h, ih, List.filter_cons, if_neg h]

theorem dropWhile_head_false (p : α → Bool) :
    ∀ (l : List α) (y : α) (ys : List α), l.dropWhile p = y :: ys → p y = false := by
  intro l
  induction l with
  | nil => intro y ys h; cases h
  | cons x xs ih =>
    intro y ys h
    by_cases hx : p x
    · rw [List.dropWhile_cons_of_pos hx] at h
      exact ih y ys h
    · rw [List.dropWhile_cons_of_neg hx] at h
      injection h with h1 h2
      subst h1
      simpa using hx

theorem filter_eq_takeWhile_of_sorted (key : α → Nat) (k : Nat) :
    ∀ (xs : List α), xs.Pairwise (fun a b => key a ≤ key b) →
      (∀ y ∈ xs, k ≤ key y) →
      xs.filter (fun y => key y == k) = xs.takeWhile (fun y => key y == k) := by
  intro xs
  induction xs with
  | nil => intro _ _; rfl
  | cons y ys ih =>
    intro hs hk
    rw [List.pairwise_cons] at hs
    by_cases h : key y == k
    · rw [List.filter_cons, if_pos h, List.takeWhile_cons, if_pos h,
        ih hs.2 (fun z hz => hk z (by simp [hz]))]
    · rw [List.filter_cons, if_neg h, List.takeWhile_cons, if_neg h]
      have hne : key y ≠ k := by simpa using h
      have hyk : k < key y :=
        Nat.lt_of_le_of_ne (hk y (by simp)) (fun hc => hne hc.symm)
      rw [List.filter_eq_nil_iff.mpr]
      intro z hz
      have hyz : key y ≤ key z := hs.1 z hz
      simp only [Bool.not_eq_true, beq_eq_false_iff_ne, ne_eq]
      omega

theorem groupby_sorted (key : α → Nat) :
    ∀ (n : Nat) (S : List α), S.length ≤ n →
      S.Pairwise (fun a b => key a ≤ key b) →
      (∀ pg ∈ groupbyList key S, pg.2 = S.filter (fun a => key a == pg.1)) ∧
      List.Chain' (· < ·) ((groupbyList key S).map Prod.fst) ∧
      (∀ a ∈ S, key a ∈ (groupbyList key S).map Prod.fst) ∧
      (∀ pg ∈ groupbyList key S, ∃ a ∈ S, key a = pg.1) := by
  intro n
  induction n with
  | zero =>
    intro S hlen _
    have hS : S = [] := List.length_eq_zero.mp (Nat.le_zero.mp hlen)
    subst hS
    exact ⟨by simp [groupbyList], by simp [groupbyList], by simp, by simp [groupbyList]⟩
  | succ n ih =>
    intro S hlen hsorted
    cases S with
    | nil =>
      exact ⟨by simp [groupbyList], by simp [groupbyList], by simp, by simp [groupbyList]⟩
    | cons x xs =>
      rw [List.pairwise_cons] at hsorted
      obtain ⟨hx_le, hxs_sorted⟩ := hsorted
      have hsub : List.Sublist (xs.dropWhile (fun y => key y == key x)) xs :=
        List.dropWhile_sublist _
      have hS'len : (xs.dropWhile (fun y => key y == key x)).length ≤ n := by
        have h1 := hsub.length_le
        have h2 : xs.length ≤ n := by simpa using Nat.le_of_succ_le_succ hlen
        omega
      have hS'sorted : (xs.dropWhile (fun y => key y == key x)).Pairwise
          (fun a b => key a ≤ key b) := hxs_sorted.sublist hsub
      obtain ⟨hfib', hchain', hcov', hkeys'⟩ := ih _ hS'len hS'sorted
      have hgt : ∀ z ∈ xs.dropWhile (fun y => key y == key x), key x < key z := by
        cases hd : xs.dropWhile (fun y => key y == key x) with
        | nil => intro z hz; cases hz
        | cons y ys =>
          have hy_mem : y ∈ xs := hsub.subset (by rw [hd]; simp)
          have hy_ne : (key y == key x) = false := dropWhile_head_false _ xs y ys hd
          have hy_gt : key x < key y := by
            have h1 : key x ≤ key y := hx_le y hy_mem
            have h2 : key y ≠ key x := by simpa using hy_ne
            omega
          intro z hz
          rcases List.mem_cons.mp hz with rfl | hz
          · exact hy_gt
          · have hpair := hS'sorted
            rw [hd] at hpair
            have h3 := (List.pairwise_cons.mp hpair).1 z hz
            omega
      have hfib_first : (x :: xs).filter (fun a => key a == key x) =
          x :: xs.takeWhile (fun y => key y == key x) := by
        rw [List.filter_cons, if_pos (by simp),
          filter_eq_takeWhile_of_sorted key (key x) xs hxs_sorted hx_le]
      rw [groupbyList_cons]
      refine ⟨?_, ?_, ?_, ?_⟩
      · intro pg hpg
        rcases List.mem_cons.mp hpg with rfl | hpg
        · simpa using hfib_first.symm
        · have h2 := hfib' pg hpg
          obtain ⟨a, ha, hak⟩ := hkeys' pg hpg
          have hpg_gt : key x < pg.1 := hak ▸ hgt a ha
          rw [h2, List.filter_cons, if_neg (by simp only [beq_iff_eq]; omega)]
          have htw : (xs.takeWhile (fun y => key y == key x)).filter
              (fun a => key a == pg.1) = [] := by
            rw [List.filter_eq_nil_iff]
            intro z hz
            have hzk := List.mem_takeWhile_imp hz
            have hzx : key z = key x := by simpa using hzk
            simp only [Bool.not_eq_true, beq_eq_false_iff_ne, ne_eq]
            omega
          conv_rhs => rw [← List.takeWhile_append_dropWhile (fun y => key y == key x) xs]
          rw [List.filter_append, htw, List.nil_append]
      · rw [List.map_cons, List.chain'_cons']
        refine ⟨?_, hchain'⟩
        intro b hb
        cases hgl : groupbyList key (xs.dropWhile (fun y => key y == key x)) with
        | nil => rw [hgl] at hb; cases hb
        | cons pg rest =>
          rw [hgl] at hb
          simp only [List.map_cons, List.head?_cons, Option.mem_some_iff] at hb
          subst hb
          obtain ⟨a, ha, hak⟩ := hkeys' pg (by rw [hgl]; simp)
          exact hak ▸ hgt a ha
      · intro a ha
        rcases List.mem_cons.mp ha with rfl | ha
        · rw [List.map_cons]
          exact List.mem_cons_self _ _
        · rw [List.map_cons]
          have hsplit : a ∈ xs.takeWhile (fun y => key y == key x) ++
              xs.dropWhile (fun y => key y == key x) := by
            rw [List.takeWhile_append_dropWhile]
            exact ha
          rcases List.mem_append.mp hsplit with h | h
          · have hka := List.mem_takeWhile_imp h
            have hka' : key a = key x := by simpa using hka
            rw [hka']
            exact List.mem_cons_self _ _
          · exact List.mem_cons_of_mem _ (hcov' a h)
      · intro pg hpg
        rcases List.mem_cons.mp hpg with rfl | hpg
        · exact ⟨x, by simp, rfl⟩
        · obtain ⟨a, ha, hak⟩ := hkeys' pg hpg
          exact ⟨a, List.mem_cons_of_mem x (hsub.subset ha), hak⟩

/-- C4: page aggregation stable-sorts the elements by page number (default 1),
groups consecutive equal page numbers — so each group is exactly the
original-order fiber of its page number, group keys are strictly increasing,
and every element's page lands in some group — and each emitted document's
`page_number` is the 1-based position of its page in the non-empty page list,
with an unchunked document's content being exactly that page's text. -/
theorem page_aggregation (cfg : ProcessingConfig) (elements : List Element)
    (source : PyStr) :
    (∀ pg ∈ groupbyList getPage (sortByKey getPage elements),
      pg.2 = elements.filter (fun el => getPage el == pg.1)) ∧
    List.Chain' (· < ·)
      ((groupbyList getPage (sortByKey getPage elements)).map Prod.fst) ∧
    (∀ el ∈ elements,
      getPage el ∈ (groupbyList getPage (sortByKey getPage elements)).map Prod.fst) ∧
    (∀ docs, process_elements_to_document cfg elements source = .ok docs →
      ∀ d ∈ docs, ∃ j, j < (combine_elements_by_page elements).length ∧
        d.metadata.page_number = j + 1 ∧
        (d.metadata.chunk_number = none →
          (combine_elements_by_page elements).get? j = some d.page_content)) := by
  obtain ⟨hfib, hchain, hcov, hkeys⟩ := groupby_sorted getPage
    (sortByKey getPage elements).length (sortByKey getPage elements) le_rfl
    (sortByKey_pairwise getPage elements)
  refine ⟨?_, hchain, ?_, ?_⟩
  · intro pg hpg
    rw [hfib pg hpg, sortByKey_filter_fiber]
  · intro el hel
    exact hcov el ((sortByKey_perm getPage elements).mem_iff.mpr hel)
  · intro docs hok d hd
    obtain ⟨p, hp, hpage, hft, hfn, hsrc, hcn⟩ :=
      pagesToDocs_fields cfg source _ docs hok d hd
    obtain ⟨j, hj, hj1, hget⟩ := enumFrom_mem hp
    refine ⟨j, hj, by omega, fun hnone => ?_⟩
    rw [hcn hnone]
    exact hget

/-- Witness for C4 at the concrete element list with pages 5, 1, 5, 3 and a
whitespace-only page 2. -/
theorem page_aggregation_witness :
    (∀ pg ∈ groupbyList getPage (sortByKey getPage pageEls),
      pg.2 = pageEls.filter (fun el => getPage el == pg.1)) ∧
    List.Chain' (· < ·)
      ((groupbyList getPage (sortByKey getPage pageEls)).map Prod.fst) ∧
    (∀ el ∈ pageEls,
      getPage el ∈ (groupbyList getPage (sortByKey getPage pageEls)).map Prod.fst) ∧
    (∀ docs, process_elements_to_document {} pageEls "d.txt".toList = .ok docs →
      ∀ d ∈ docs, ∃ j, j < (combine_elements_by_page pageEls).length ∧
        d.metadata.page_number = j + 1 ∧
        (d.metadata.chunk_number = none →
          (combine_elements_by_page pageEls).get? j = some d.page_content)) :=
  page_aggregation {} pageEls "d.txt".toList

end Indox
